import Mathlib

/-!
Verification development for the GO-term enrichment core of
kb_functional_enrichment_1 (lib/kb_functional_enrichment_1/Utils/FunctionalEnrichmentUtil.py).

The Python dictionaries are embedded as association lists with unique keys
maintained by `dictUpdate` (Python dict assignment semantics: replace the
binding when the key exists, append it otherwise).  The pipeline stages are
translated one by one:

* `get_go_maps_from_genome` embeds `_get_go_maps_from_genome`;
* `buildContTable` embeds the contingency-table block of `run_fe1`;
* `fisherLeftTail` embeds `fisher.pvalue(a, b, c, d).left_tail` (the
  hypergeometric lower tail, i.e. the probability of an overlap at most as
  large as the observed one, which is that library's documented semantics);
* `bhAdjust` embeds R `stats::p.adjust(..., method = "fdr")` as called by
  `run_fe1`, in exact rational arithmetic;
* `assignedAdjusted` embeds the per-term lookup
  `pos = all_raw_p_value.index(raw_p_value); adjusted_p_values[pos]`.
-/

/-! ## Association-list dictionaries (Python dict semantics) -/

/-- Keys of an association-list dictionary, in insertion order. -/
def dictKeys {K V : Type} (d : List (K × V)) : List K :=
  d.map Prod.fst

/-- Lookup in an association-list dictionary (Python `d.get(k)` / `d[k]`). -/
def dictGet? {K V : Type} [DecidableEq K] (d : List (K × V)) (k : K) : Option V :=
  (d.find? (fun kv => kv.1 = k)).map Prod.snd

/-- Python `d[k] = v`: replace the binding of the key when it is present
(keys are unique in every dictionary the code builds), append it otherwise. -/
def dictUpdate {K V : Type} [DecidableEq K] (d : List (K × V)) (k : K) (v : V) :
    List (K × V) :=
  match d with
  | [] => [(k, v)]
  | kv :: rest => if kv.1 = k then (k, v) :: rest else kv :: dictUpdate rest k v

/-! ## Annotation Index Builder (`_get_go_maps_from_genome`) -/

/-- The regular expression test of FunctionalEnrichmentUtil.py line 168:
`re.match('[gG][oO]\:.*', ontology_id)`, i.e. the string starts with a
case-insensitive "GO" followed by a colon; the remainder is unconstrained. -/
def isGoId (s : String) : Bool :=
  match s.data with
  | g :: o :: c :: _ =>
      ((g == 'g') || (g == 'G')) && ((o == 'o') || (o == 'O')) && (c == ':')
  | _ => false

/-- The pattern stated by the spec, for comparison with `isGoId`: a
case-insensitive "GO:" followed by one or more digits and nothing else. -/
def specGoPattern (s : String) : Bool :=
  match s.data with
  | g :: o :: c :: rest =>
      ((g == 'g') || (g == 'G')) && ((o == 'o') || (o == 'O')) && (c == ':')
        && (!rest.isEmpty) && rest.all (fun ch => ch.isDigit)
  | _ => false

/-- Per-feature metadata recorded in `feature_id_feature_info_map`. -/
structure FeatureInfo where
  function : Option String
  feature_type : Option String
deriving DecidableEq

/-- One raw genome-feature record as consumed by `_get_go_maps_from_genome`.
Every field is read with `dict.get`, so each may be absent; `ontology_terms`
is a dictionary from ontology id to human-readable term. -/
structure GenomeFeature where
  feature_id : Option String
  function : Option String
  feature_type : Option String
  ontology_terms : Option (List (String × String))
deriving DecidableEq

/-- The four maps returned by `_get_go_maps_from_genome`. -/
structure GoMaps where
  feature_id_go_id_list_map : List (Option String × List String)
  go_id_feature_id_list_map : List (String × List (Option String))
  go_id_go_term_map : List (String × String)
  feature_id_feature_info_map : List (Option String × FeatureInfo)
deriving DecidableEq

/-- The inner `for ontology_id, ontology_term in ontology_terms.iteritems()`
loop: qualifying ids update `go_id_go_term_map` and accumulate in
`go_id_list`. -/
def processOntology :
    List (String × String) → List (String × String) → List String →
      List (String × String) × List String
  | [], m, acc => (m, acc)
  | (oid, oterm) :: rest, m, acc =>
      if isGoId oid then
        processOntology rest (dictUpdate m oid oterm) (acc ++ [oid])
      else
        processOntology rest m acc

/-- The GO ids a record's ontology dictionary contributes, in order. -/
def goIdsOf (terms : List (String × String)) : List String :=
  (terms.filter (fun p => isGoId p.1)).map Prod.fst

/-- One iteration of the `for go_id in go_id_list` loop: append the feature
id to the term's feature list, creating the list when the term is new. -/
def addFeatureOne (fid : Option String)
    (g : List (String × List (Option String))) (goid : String) :
    List (String × List (Option String)) :=
  match dictGet? g goid with
  | some fids => dictUpdate g goid (fids ++ [fid])
  | none => dictUpdate g goid [fid]

/-- The whole `for go_id in go_id_list` loop. -/
def addFeature (fid : Option String) :
    List String → List (String × List (Option String)) →
      List (String × List (Option String))
  | [], g => g
  | goid :: rest, g => addFeature fid rest (addFeatureOne fid g goid)

/-- The body of the `for genome_feature in genome_features` loop. -/
def processFeature (st : GoMaps) (gf : GenomeFeature) : GoMaps :=
  let fmap := dictUpdate st.feature_id_feature_info_map gf.feature_id
    ⟨gf.function, gf.feature_type⟩
  let pair :=
    match gf.ontology_terms with
    | some terms => processOntology terms st.go_id_go_term_map []
    | none => (st.go_id_go_term_map, [])
  if pair.2 = [] then
    { st with go_id_go_term_map := pair.1, feature_id_feature_info_map := fmap }
  else
    { feature_id_go_id_list_map :=
        dictUpdate st.feature_id_go_id_list_map gf.feature_id pair.2
      go_id_feature_id_list_map :=
        addFeature gf.feature_id pair.2 st.go_id_feature_id_list_map
      go_id_go_term_map := pair.1
      feature_id_feature_info_map := fmap }

/-- `_get_go_maps_from_genome`, as a fold over the raw feature records. -/
def get_go_maps_from_genome (features : List GenomeFeature) : GoMaps :=
  features.foldl processFeature ⟨[], [], [], []⟩

/-- Pair membership in the feature-to-term direction of the index. -/
def featHasTerm (M : GoMaps) (fid : Option String) (t : String) : Prop :=
  ∃ l, dictGet? M.feature_id_go_id_list_map fid = some l ∧ t ∈ l

/-- Pair membership in the term-to-feature direction of the index. -/
def termHasFeat (M : GoMaps) (fid : Option String) (t : String) : Prop :=
  ∃ l, dictGet? M.go_id_feature_id_list_map t = some l ∧ fid ∈ l

/-! ## Contingency Table Builder (`run_fe1`, lines 232-241) -/

/-- A 2-by-2 contingency table; the entries are Python ints, so integers. -/
structure ContTable where
  a : ℤ
  b : ℤ
  c : ℤ
  d : ℤ
deriving DecidableEq

/-- The table computed by `run_fe1` for one term:
`a = len(set(mapped_features).intersection(feature_set_ids))`,
`b = len(feature_set_ids) - a`, `c = len(mapped_features) - a`,
`d = len(feature_ids) - len(feature_set_ids) - c`. -/
def buildContTable (mapped_features feature_set_ids feature_ids : List String) :
    ContTable :=
  let a : ℤ :=
    ((mapped_features.dedup).filter (fun x => x ∈ feature_set_ids)).length
  { a := a
    b := (feature_set_ids.length : ℤ) - a
    c := (mapped_features.length : ℤ) - a
    d := (feature_ids.length : ℤ) - (feature_set_ids.length : ℤ)
          - ((mapped_features.length : ℤ) - a) }

/-! ## Exact Test Engine (`fisher.pvalue(a, b, c, d).left_tail`) -/

/-- Hypergeometric probability mass: drawing `n` of `N` items of which `K`
are marked, the probability that exactly `k` drawn items are marked. -/
def hypergeomPMF (N K n k : ℕ) : ℚ :=
  ((K.choose k : ℚ) * ((N - K).choose (n - k) : ℚ)) / (N.choose n : ℚ)

/-- The value `fisher.pvalue(a, b, c, d).left_tail` used at line 243: with
all marginals fixed, the probability that the top-left cell is at most `a`
(the lower tail of the hypergeometric distribution). -/
def fisherLeftTail (a b c d : ℕ) : ℚ :=
  ((List.range (a + 1)).map
    (fun k => hypergeomPMF (a + b + c + d) (a + c) (a + b) k)).sum

/-- The quantity the spec asks for: the one-tailed over-representation
probability, i.e. the upper tail, the probability that the top-left cell is
at least `a` under the same fixed marginals.  Follows the spec's words, for
comparison with `fisherLeftTail`. -/
def specRightTail (a b c d : ℕ) : ℚ :=
  ((List.range (b + 1)).map
    (fun i => hypergeomPMF (a + b + c + d) (a + c) (a + b) (a + i))).sum

/-! ## Multiple-Testing Corrector (R `stats::p.adjust(..., method = "fdr")`) -/

/-- The raw p-values sorted ascending. Any sorting algorithm produces the
same list of rationals, since sorted permutations agree elementwise. -/
def sortedAsc (ps : List ℚ) : List ℚ :=
  ps.insertionSort (fun a b => a ≤ b)

/-- The clamped suffix-minimum pass of the Benjamini-Hochberg adjustment:
given the ascending-sorted p-values starting at 1-based rank `k` out of `m`
hypotheses, produce for each rank the value
`min(1, min over ranks at or above it of p * m / rank)`, exactly R's
`pmin(1, cummin(n/i * p[o]))` read in ascending-rank order. -/
def bhFrom (m : ℕ) : ℕ → List ℚ → List ℚ
  | _, [] => []
  | k, p :: rest =>
      let tail := bhFrom m (k + 1) rest
      min (min 1 (p * m / k)) (tail.headD 1) :: tail

/-- The Benjamini-Hochberg adjusted values in ascending-rank order. -/
def bhSortedAdj (ps : List ℚ) : List ℚ :=
  bhFrom ps.length 1 (sortedAsc ps)

/-- R `stats::p.adjust(ps, method = "fdr")`: each input is mapped back to the
adjusted value at its rank in the ascending sort.  R picks each element's own
rank through the inverse of a tie-stable sort; tied raw values receive equal
adjusted values (`bhFrom_tie` below), so indexing the first matching rank
yields the same list. -/
def bhAdjust (ps : List ℚ) : List ℚ :=
  ps.map (fun p => (bhSortedAdj ps).getD ((sortedAsc ps).indexOf p) 0)

/-- The per-term assignment of `run_fe1` lines 250-252: the term at position
`i` of the batch receives `adjusted_p_values[all_raw_p_value.index(p_i)]`,
the adjusted value at the first position of the unsorted list that holds its
raw value. -/
def assignedAdjusted (ps : List ℚ) (i : ℕ) : ℚ :=
  (bhAdjust ps).getD (ps.indexOf (ps.getD i 0)) 0

/-! ## Dictionary lemmas -/

theorem dictGet?_nil {K V : Type} [DecidableEq K] (k : K) :
    dictGet? ([] : List (K × V)) k = none := rfl

theorem dictGet?_cons {K V : Type} [DecidableEq K] (kv : K × V)
    (rest : List (K × V)) (k : K) :
    dictGet? (kv :: rest) k = if kv.1 = k then some kv.2 else dictGet? rest k := by
  simp only [dictGet?, List.find?]
  by_cases h : kv.1 = k <;> simp [h]

theorem dictGet?_eq_none {K V : Type} [DecidableEq K] {d : List (K × V)} {k : K}
    (h : k ∉ dictKeys d) : dictGet? d k = none := by
  induction d with
  | nil => rfl
  | cons kv rest ih =>
      simp only [dictKeys, List.map_cons, List.mem_cons, not_or] at h
      have h1 : kv.1 ≠ k := fun hh => h.1 hh.symm
      rw [dictGet?_cons, if_neg h1]
      exact ih h.2

theorem mem_dictKeys_of_get {K V : Type} [DecidableEq K] {d : List (K × V)}
    {k : K} {v : V} (h : dictGet? d k = some v) : k ∈ dictKeys d := by
  by_contra hk
  rw [dictGet?_eq_none hk] at h
  exact Option.noConfusion h

theorem dictGet?_update_self {K V : Type} [DecidableEq K]
    (d : List (K × V)) (k : K) (v : V) :
    dictGet? (dictUpdate d k v) k = some v := by
  induction d with
  | nil => simp [dictUpdate, dictGet?_cons]
  | cons kv rest ih =>
      by_cases h : kv.1 = k
      · simp [dictUpdate, h, dictGet?_cons]
      · rw [dictUpdate, if_neg h, dictGet?_cons, if_neg h]
        exact ih

theorem dictGet?_update_ne {K V : Type} [DecidableEq K]
    (d : List (K × V)) {k k1 : K} (v : V) (h : k1 ≠ k) :
    dictGet? (dictUpdate d k v) k1 = dictGet? d k1 := by
  have h1 : k ≠ k1 := Ne.symm h
  induction d with
  | nil => simp [dictUpdate, dictGet?_cons, h1]
  | cons kv rest ih =>
      by_cases hk : kv.1 = k
      · rw [dictUpdate, if_pos hk, dictGet?_cons, if_neg h1, dictGet?_cons,
          if_neg (by rw [hk]; exact h1)]
      · rw [dictUpdate, if_neg hk, dictGet?_cons, dictGet?_cons]
        by_cases hk1 : kv.1 = k1
        · rw [if_pos hk1, if_pos hk1]
        · rw [if_neg hk1, if_neg hk1]
          exact ih

theorem mem_dictKeys_update {K V : Type} [DecidableEq K]
    (d : List (K × V)) (k k1 : K) (v : V) :
    k1 ∈ dictKeys (dictUpdate d k v) ↔ k1 = k ∨ k1 ∈ dictKeys d := by
  induction d with
  | nil => simp [dictUpdate, dictKeys]
  | cons kv rest ih =>
      by_cases h : kv.1 = k
      · rw [dictUpdate, if_pos h]
        simp only [dictKeys, List.map_cons, List.mem_cons]
        rw [h]
        tauto
      · rw [dictUpdate, if_neg h]
        simp only [dictKeys, List.map_cons, List.mem_cons] at ih ⊢
        tauto

/-! ## Lemmas about the ontology loop and the per-term feature lists -/

theorem goIdsOf_nil : goIdsOf [] = [] := rfl

theorem goIdsOf_cons (oid oterm : String) (rest : List (String × String)) :
    goIdsOf ((oid, oterm) :: rest) =
      if isGoId oid then oid :: goIdsOf rest else goIdsOf rest := by
  by_cases h : isGoId oid <;> simp [goIdsOf, List.filter, h]

theorem isGoId_of_mem_goIdsOf {terms : List (String × String)} {t : String}
    (h : t ∈ goIdsOf terms) : isGoId t = true := by
  simp only [goIdsOf, List.mem_map, List.mem_filter] at h
  obtain ⟨p, ⟨_, hp⟩, rfl⟩ := h
  exact hp

theorem processOntology_snd (terms : List (String × String)) :
    ∀ (m : List (String × String)) (acc : List String),
      (processOntology terms m acc).2 = acc ++ goIdsOf terms := by
  induction terms with
  | nil => intro m acc; simp [processOntology, goIdsOf]
  | cons p rest ih =>
      intro m acc
      obtain ⟨oid, oterm⟩ := p
      by_cases h : isGoId oid
      · rw [processOntology, if_pos h, ih, goIdsOf_cons, if_pos h]
        simp
      · rw [processOntology, if_neg h, ih, goIdsOf_cons, if_neg h]

theorem processOntology_fst_keys (terms : List (String × String)) :
    ∀ (m : List (String × String)) (acc : List String) (t : String),
      t ∈ dictKeys (processOntology terms m acc).1 ↔
        t ∈ dictKeys m ∨ t ∈ goIdsOf terms := by
  induction terms with
  | nil => intro m acc t; simp [processOntology, goIdsOf]
  | cons p rest ih =>
      intro m acc t
      obtain ⟨oid, oterm⟩ := p
      by_cases h : isGoId oid
      · rw [processOntology, if_pos h, goIdsOf_cons, if_pos h]
        rw [ih]
        rw [mem_dictKeys_update]
        simp only [List.mem_cons]
        tauto
      · rw [processOntology, if_neg h, goIdsOf_cons, if_neg h]
        exact ih m acc t

theorem addFeatureOne_mem (fid x : Option String)
    (g : List (String × List (Option String))) (goid t : String) :
    (∃ l, dictGet? (addFeatureOne fid g goid) t = some l ∧ x ∈ l) ↔
      (x = fid ∧ t = goid) ∨ (∃ l, dictGet? g t = some l ∧ x ∈ l) := by
  unfold addFeatureOne
  by_cases ht : t = goid
  · cases hg : dictGet? g goid with
    | some fids =>
        simp only [hg]
        constructor
        · rintro ⟨l, hl, hx⟩
          rw [ht, dictGet?_update_self] at hl
          obtain rfl : fids ++ [fid] = l := by injection hl
          rcases List.mem_append.mp hx with hx | hx
          · exact Or.inr ⟨fids, by rw [ht]; exact hg, hx⟩
          · exact Or.inl ⟨List.mem_singleton.mp hx, ht⟩
        · rintro (⟨hxf, _⟩ | ⟨l, hl, hx⟩)
          · refine ⟨fids ++ [fid], ?_, by simp [hxf]⟩
            rw [ht]
            exact dictGet?_update_self g goid (fids ++ [fid])
          · have hlf : l = fids := by
              rw [ht, hg] at hl
              exact (Option.some.inj hl).symm
            refine ⟨fids ++ [fid], ?_, ?_⟩
            · rw [ht]
              exact dictGet?_update_self g goid (fids ++ [fid])
            · subst hlf
              exact List.mem_append.mpr (Or.inl hx)
    | none =>
        simp only [hg]
        constructor
        · rintro ⟨l, hl, hx⟩
          rw [ht, dictGet?_update_self] at hl
          obtain rfl : [fid] = l := by injection hl
          exact Or.inl ⟨List.mem_singleton.mp hx, ht⟩
        · rintro (⟨hxf, _⟩ | ⟨l, hl, hx⟩)
          · refine ⟨[fid], ?_, by simp [hxf]⟩
            rw [ht]
            exact dictGet?_update_self g goid [fid]
          · rw [ht, hg] at hl
            exact Option.noConfusion hl
  · have hne :
        dictGet?
          (match dictGet? g goid with
           | some fids => dictUpdate g goid (fids ++ [fid])
           | none => dictUpdate g goid [fid]) t = dictGet? g t := by
      cases hg : dictGet? g goid with
      | some fids => exact dictGet?_update_ne g _ ht
      | none => exact dictGet?_update_ne g _ ht
    rw [hne]
    constructor
    · exact fun h => Or.inr h
    · rintro (⟨_, hteq⟩ | h)
      · exact absurd hteq ht
      · exact h

theorem addFeatureOne_keys (fid : Option String)
    (g : List (String × List (Option String))) (goid t : String) :
    t ∈ dictKeys (addFeatureOne fid g goid) ↔ t = goid ∨ t ∈ dictKeys g := by
  unfold addFeatureOne
  cases hg : dictGet? g goid with
  | some fids => exact mem_dictKeys_update g goid t _
  | none => exact mem_dictKeys_update g goid t _

theorem addFeatureOne_nonempty (fid : Option String)
    (g : List (String × List (Option String))) (goid : String)
    (hg : ∀ t l, dictGet? g t = some l → l ≠ []) :
    ∀ t l, dictGet? (addFeatureOne fid g goid) t = some l → l ≠ [] := by
  intro t l hl
  unfold addFeatureOne at hl
  by_cases ht : t = goid
  · cases hgo : dictGet? g goid with
    | some fids =>
        rw [hgo, ht, dictGet?_update_self] at hl
        obtain rfl : fids ++ [fid] = l := by injection hl
        simp
    | none =>
        rw [hgo, ht, dictGet?_update_self] at hl
        obtain rfl : [fid] = l := by injection hl
        simp
  · cases hgo : dictGet? g goid with
    | some fids =>
        rw [hgo, dictGet?_update_ne g _ ht] at hl
        exact hg t l hl
    | none =>
        rw [hgo, dictGet?_update_ne g _ ht] at hl
        exact hg t l hl

theorem addFeature_mem (fid : Option String) (gl : List String) :
    ∀ (g : List (String × List (Option String))) (x : Option String) (t : String),
      (∃ l, dictGet? (addFeature fid gl g) t = some l ∧ x ∈ l) ↔
        (x = fid ∧ t ∈ gl) ∨ (∃ l, dictGet? g t = some l ∧ x ∈ l) := by
  induction gl with
  | nil => intro g x t; simp [addFeature]
  | cons goid rest ih =>
      intro g x t
      rw [addFeature, ih, addFeatureOne_mem]
      simp only [List.mem_cons]
      tauto

theorem addFeature_keys (fid : Option String) (gl : List String) :
    ∀ (g : List (String × List (Option String))) (t : String),
      t ∈ dictKeys (addFeature fid gl g) ↔ t ∈ gl ∨ t ∈ dictKeys g := by
  induction gl with
  | nil => intro g t; simp [addFeature]
  | cons goid rest ih =>
      intro g t
      rw [addFeature, ih, addFeatureOne_keys]
      simp only [List.mem_cons]
      tauto

theorem addFeature_nonempty (fid : Option String) (gl : List String) :
    ∀ (g : List (String × List (Option String))),
      (∀ t l, dictGet? g t = some l → l ≠ []) →
      ∀ t l, dictGet? (addFeature fid gl g) t = some l → l ≠ [] := by
  induction gl with
  | nil => intro g hg; exact fun t l h => hg t l h
  | cons goid rest ih =>
      intro g hg
      rw [addFeature]
      exact ih _ (addFeatureOne_nonempty fid g goid hg)

/-! ## Invariants of the annotation index -/

/-- The GO-id list a record contributes (`go_id_list` at the end of the
ontology loop). -/
def goListOf (gf : GenomeFeature) : List String :=
  match gf.ontology_terms with
  | some terms => goIdsOf terms
  | none => []

/-- The index invariants of the spec: the two directions of the relation
agree on every (feature, term) pair, the label map and the term-to-feature
map hold the same terms, and no term has an empty feature list. -/
def IndexInv (M : GoMaps) : Prop :=
  (∀ fid t, featHasTerm M fid t ↔ termHasFeat M fid t) ∧
  (∀ t, t ∈ dictKeys M.go_id_go_term_map ↔
    t ∈ dictKeys M.go_id_feature_id_list_map) ∧
  (∀ t l, dictGet? M.go_id_feature_id_list_map t = some l → l ≠ [])

/-- Bookkeeping for the induction: every feature id recorded in either
direction of the relation was already processed (is in `P`). -/
def FeatBound (M : GoMaps) (P : List (Option String)) : Prop :=
  (∀ fid, fid ∈ dictKeys M.feature_id_go_id_list_map → fid ∈ P) ∧
  (∀ fid t, termHasFeat M fid t → fid ∈ P)

theorem dictKeys_iff_get {K V : Type} [DecidableEq K] (d : List (K × V)) (k : K) :
    k ∈ dictKeys d ↔ ∃ v, dictGet? d k = some v := by
  induction d with
  | nil => simp [dictKeys, dictGet?]
  | cons kv rest ih =>
      by_cases h : kv.1 = k
      · simp [dictKeys, dictGet?_cons, h]
      · have h1 : ¬k = kv.1 := fun hh => h hh.symm
        simp only [dictKeys, List.map_cons, List.mem_cons, dictGet?_cons,
          if_neg h, h1, false_or]
        exact ih

theorem processOntology_snd_nil_iff (terms : List (String × String))
    (m : List (String × String)) :
    (processOntology terms m []).2 = goIdsOf terms := by
  rw [processOntology_snd]
  simp

theorem processFeature_f2t_empty (st : GoMaps) (gf : GenomeFeature)
    (h : goListOf gf = []) :
    (processFeature st gf).feature_id_go_id_list_map =
      st.feature_id_go_id_list_map := by
  obtain ⟨fid, fn, ft, ot⟩ := gf
  cases ot with
  | none => rfl
  | some terms =>
      simp only [goListOf] at h
      simp [processFeature, processOntology_snd_nil_iff, h]

theorem processFeature_t2f_empty (st : GoMaps) (gf : GenomeFeature)
    (h : goListOf gf = []) :
    (processFeature st gf).go_id_feature_id_list_map =
      st.go_id_feature_id_list_map := by
  obtain ⟨fid, fn, ft, ot⟩ := gf
  cases ot with
  | none => rfl
  | some terms =>
      simp only [goListOf] at h
      simp [processFeature, processOntology_snd_nil_iff, h]

theorem processFeature_keys_empty (st : GoMaps) (gf : GenomeFeature)
    (h : goListOf gf = []) (t : String) :
    t ∈ dictKeys (processFeature st gf).go_id_go_term_map ↔
      t ∈ dictKeys st.go_id_go_term_map := by
  obtain ⟨fid, fn, ft, ot⟩ := gf
  cases ot with
  | none => rfl
  | some terms =>
      simp only [goListOf] at h
      simp only [processFeature, processOntology_snd_nil_iff, h, if_pos]
      rw [processOntology_fst_keys]
      simp [h]

theorem processFeature_f2t_nonempty (st : GoMaps) (gf : GenomeFeature)
    (h : goListOf gf ≠ []) :
    (processFeature st gf).feature_id_go_id_list_map =
      dictUpdate st.feature_id_go_id_list_map gf.feature_id (goListOf gf) := by
  obtain ⟨fid, fn, ft, ot⟩ := gf
  cases ot with
  | none => exact absurd rfl h
  | some terms =>
      simp only [goListOf] at h ⊢
      simp [processFeature, processOntology_snd_nil_iff, h]

theorem processFeature_t2f_nonempty (st : GoMaps) (gf : GenomeFeature)
    (h : goListOf gf ≠ []) :
    (processFeature st gf).go_id_feature_id_list_map =
      addFeature gf.feature_id (goListOf gf) st.go_id_feature_id_list_map := by
  obtain ⟨fid, fn, ft, ot⟩ := gf
  cases ot with
  | none => exact absurd rfl h
  | some terms =>
      simp only [goListOf] at h ⊢
      simp [processFeature, processOntology_snd_nil_iff, h]

theorem processFeature_keys_nonempty (st : GoMaps) (gf : GenomeFeature)
    (h : goListOf gf ≠ []) (t : String) :
    t ∈ dictKeys (processFeature st gf).go_id_go_term_map ↔
      t ∈ dictKeys st.go_id_go_term_map ∨ t ∈ goListOf gf := by
  obtain ⟨fid, fn, ft, ot⟩ := gf
  cases ot with
  | none => exact absurd rfl h
  | some terms =>
      simp only [goListOf] at h ⊢
      simp [processFeature, processOntology_snd_nil_iff, h,
        processOntology_fst_keys]

theorem termHasFeat_iff (st : GoMaps) (gf : GenomeFeature)
    (h : goListOf gf ≠ []) (x : Option String) (t : String) :
    termHasFeat (processFeature st gf) x t ↔
      (x = gf.feature_id ∧ t ∈ goListOf gf) ∨ termHasFeat st x t := by
  simp only [termHasFeat, processFeature_t2f_nonempty st gf h]
  exact addFeature_mem gf.feature_id (goListOf gf)
    st.go_id_feature_id_list_map x t

theorem processFeature_inv (st : GoMaps) (P : List (Option String))
    (gf : GenomeFeature) (hinv : IndexInv st) (hbound : FeatBound st P)
    (hfresh : gf.feature_id ∉ P) :
    IndexInv (processFeature st gf) ∧
      FeatBound (processFeature st gf) (gf.feature_id :: P) := by
  by_cases h : goListOf gf = []
  · constructor
    · refine ⟨fun x t => ?_, fun t => ?_, fun t l hl => ?_⟩
      · simp only [featHasTerm, termHasFeat, processFeature_f2t_empty st gf h,
          processFeature_t2f_empty st gf h]
        exact hinv.1 x t
      · rw [processFeature_keys_empty st gf h, processFeature_t2f_empty st gf h]
        exact hinv.2.1 t
      · rw [processFeature_t2f_empty st gf h] at hl
        exact hinv.2.2 t l hl
    · refine ⟨fun x hx => ?_, fun x t hx => ?_⟩
      · rw [processFeature_f2t_empty st gf h] at hx
        exact List.mem_cons_of_mem _ (hbound.1 x hx)
      · simp only [termHasFeat, processFeature_t2f_empty st gf h] at hx
        exact List.mem_cons_of_mem _ (hbound.2 x t hx)
  · constructor
    · refine ⟨fun x t => ?_, fun t => ?_, fun t l hl => ?_⟩
      · rw [termHasFeat_iff st gf h]
        by_cases hx : x = gf.feature_id
        · subst hx
          simp only [featHasTerm, processFeature_f2t_nonempty st gf h,
            dictGet?_update_self]
          constructor
          · rintro ⟨l, hl, htl⟩
            obtain rfl : goListOf gf = l := by injection hl
            exact Or.inl ⟨by trivial, htl⟩
          · rintro (⟨_, htl⟩ | hold)
            · exact ⟨goListOf gf, rfl, htl⟩
            · exact absurd (hbound.2 _ t hold) hfresh
        · simp only [featHasTerm, processFeature_f2t_nonempty st gf h,
            dictGet?_update_ne _ _ hx]
          have h1 : (∃ l, dictGet? st.feature_id_go_id_list_map x = some l ∧
              t ∈ l) ↔ termHasFeat st x t := hinv.1 x t
          rw [h1]
          constructor
          · exact fun hold => Or.inr hold
          · rintro (⟨hxeq, _⟩ | hold)
            · exact absurd hxeq hx
            · exact hold
      · rw [processFeature_keys_nonempty st gf h]
        have h3 : t ∈ dictKeys (processFeature st gf).go_id_feature_id_list_map
            ↔ t ∈ goListOf gf ∨ t ∈ dictKeys st.go_id_feature_id_list_map := by
          rw [processFeature_t2f_nonempty st gf h]
          exact addFeature_keys gf.feature_id (goListOf gf)
            st.go_id_feature_id_list_map t
        rw [h3, hinv.2.1 t]
        tauto
      · rw [processFeature_t2f_nonempty st gf h] at hl
        exact addFeature_nonempty gf.feature_id (goListOf gf)
          st.go_id_feature_id_list_map hinv.2.2 t l hl
    · refine ⟨fun x hx => ?_, fun x t hx => ?_⟩
      · rw [processFeature_f2t_nonempty st gf h, mem_dictKeys_update] at hx
        rcases hx with hx | hx
        · exact hx ▸ List.mem_cons_self _ _
        · exact List.mem_cons_of_mem _ (hbound.1 x hx)
      · rw [termHasFeat_iff st gf h] at hx
        rcases hx with ⟨hx, _⟩ | hx
        · exact hx ▸ List.mem_cons_self _ _
        · exact List.mem_cons_of_mem _ (hbound.2 x t hx)

theorem foldl_processFeature_inv (features : List GenomeFeature) :
    ∀ (st : GoMaps) (P : List (Option String)),
      IndexInv st → FeatBound st P →
      (∀ gf ∈ features, gf.feature_id ∉ P) →
      (features.map (fun gf => gf.feature_id)).Nodup →
      IndexInv (features.foldl processFeature st) := by
  induction features with
  | nil => intro st P hinv _ _ _; exact hinv
  | cons gf rest ih =>
      intro st P hinv hbound hP hnd
      rw [List.foldl_cons]
      have hstep := processFeature_inv st P gf hinv hbound
        (hP gf (List.mem_cons_self _ _))
      simp only [List.map_cons, List.nodup_cons] at hnd
      refine ih (processFeature st gf) (gf.feature_id :: P) hstep.1 hstep.2
        (fun gf1 hgf1 => ?_) hnd.2
      simp only [List.mem_cons, not_or]
      constructor
      · intro heq
        exact hnd.1 (heq ▸ List.mem_map_of_mem (fun g => g.feature_id) hgf1)
      · exact hP gf1 (List.mem_cons_of_mem _ hgf1)

theorem indexInv_initial : IndexInv ⟨[], [], [], []⟩ := by
  refine ⟨fun x t => ?_, fun t => ?_, fun t l hl => ?_⟩
  · simp [featHasTerm, termHasFeat, dictGet?]
  · simp [dictKeys]
  · exact Option.noConfusion hl

theorem get_go_maps_inv (features : List GenomeFeature)
    (h : (features.map (fun gf => gf.feature_id)).Nodup) :
    IndexInv (get_go_maps_from_genome features) := by
  refine foldl_processFeature_inv features ⟨[], [], [], []⟩ [] indexInv_initial
    ⟨fun x hx => ?_, fun x t hx => ?_⟩ (fun gf _ => List.not_mem_nil _) h
  · simp [dictKeys] at hx
  · obtain ⟨l, hl, _⟩ := hx
    exact Option.noConfusion hl

/-! ## Only GO-matching identifiers are retained -/

theorem goListOf_isGoId {gf : GenomeFeature} {t : String}
    (h : t ∈ goListOf gf) : isGoId t = true := by
  unfold goListOf at h
  cases hot : gf.ontology_terms with
  | none => rw [hot] at h; exact absurd h (List.not_mem_nil t)
  | some terms => rw [hot] at h; exact isGoId_of_mem_goIdsOf h

/-- Every key of the two term-indexed maps passes the regex test. -/
def GoKeysInv (M : GoMaps) : Prop :=
  (∀ t, t ∈ dictKeys M.go_id_go_term_map → isGoId t = true) ∧
  (∀ t, t ∈ dictKeys M.go_id_feature_id_list_map → isGoId t = true)

theorem processFeature_goKeys (st : GoMaps) (gf : GenomeFeature)
    (hk : GoKeysInv st) : GoKeysInv (processFeature st gf) := by
  by_cases h : goListOf gf = []
  · constructor
    · intro t ht
      rw [processFeature_keys_empty st gf h] at ht
      exact hk.1 t ht
    · intro t ht
      rw [processFeature_t2f_empty st gf h] at ht
      exact hk.2 t ht
  · constructor
    · intro t ht
      rw [processFeature_keys_nonempty st gf h] at ht
      rcases ht with ht | ht
      · exact hk.1 t ht
      · exact goListOf_isGoId ht
    · intro t ht
      rw [processFeature_t2f_nonempty st gf h, addFeature_keys] at ht
      rcases ht with ht | ht
      · exact goListOf_isGoId ht
      · exact hk.2 t ht

theorem foldl_goKeys (features : List GenomeFeature) :
    ∀ st : GoMaps, GoKeysInv st →
      GoKeysInv (features.foldl processFeature st) := by
  induction features with
  | nil => intro st h; exact h
  | cons gf rest ih =>
      intro st h
      rw [List.foldl_cons]
      exact ih (processFeature st gf) (processFeature_goKeys st gf h)

/-! ## The metadata map records every processed feature -/

theorem processFeature_info (st : GoMaps) (gf : GenomeFeature) :
    (processFeature st gf).feature_id_feature_info_map =
      dictUpdate st.feature_id_feature_info_map gf.feature_id
        ⟨gf.function, gf.feature_type⟩ := by
  obtain ⟨fid, fn, ft, ot⟩ := gf
  cases ot with
  | none => rfl
  | some terms =>
      by_cases h : (processOntology terms st.go_id_go_term_map []).2 = []
      · simp [processFeature, h]
      · simp [processFeature, h]

theorem foldl_info_mono (features : List GenomeFeature) :
    ∀ (st : GoMaps) (k : Option String),
      k ∈ dictKeys st.feature_id_feature_info_map →
      k ∈ dictKeys
        (features.foldl processFeature st).feature_id_feature_info_map := by
  induction features with
  | nil => intro st k h; exact h
  | cons gf rest ih =>
      intro st k h
      rw [List.foldl_cons]
      refine ih (processFeature st gf) k ?_
      rw [processFeature_info, mem_dictKeys_update]
      exact Or.inr h

theorem mem_info_of_mem (features : List GenomeFeature) :
    ∀ (st : GoMaps) (gf : GenomeFeature), gf ∈ features →
      gf.feature_id ∈ dictKeys
        (features.foldl processFeature st).feature_id_feature_info_map := by
  induction features with
  | nil => intro st gf h; exact absurd h (List.not_mem_nil gf)
  | cons gf0 rest ih =>
      intro st gf h
      rw [List.foldl_cons]
      rcases List.mem_cons.mp h with rfl | h
      · refine foldl_info_mono rest (processFeature st gf) gf.feature_id ?_
        rw [processFeature_info, mem_dictKeys_update]
        exact Or.inl rfl
      · exact ih (processFeature st gf0) gf h

/-! ## Lemmas about the Benjamini-Hochberg pass -/

theorem bhFrom_cons (m k : ℕ) (p : ℚ) (rest : List ℚ) :
    bhFrom m k (p :: rest) =
      min (min 1 (p * m / k)) ((bhFrom m (k + 1) rest).headD 1) ::
        bhFrom m (k + 1) rest := rfl

theorem bhFrom_length (m : ℕ) (l : List ℚ) :
    ∀ k : ℕ, (bhFrom m k l).length = l.length := by
  induction l with
  | nil => intro k; rfl
  | cons p rest ih =>
      intro k
      rw [bhFrom_cons, List.length_cons, List.length_cons, ih (k + 1)]

theorem sorted_getD_mono {l : List ℚ} (hs : List.Sorted (· ≤ ·) l) {i j : ℕ}
    (hij : i ≤ j) (hj : j < l.length) : l.getD i 0 ≤ l.getD j 0 := by
  rcases eq_or_lt_of_le hij with rfl | hlt
  · exact le_refl _
  · rw [List.getD_eq_getElem _ _ (lt_trans hlt hj), List.getD_eq_getElem _ _ hj]
    exact List.pairwise_iff_getElem.mp hs i j (lt_trans hlt hj) hj hlt

theorem rank_factor_mono {p : ℚ} (hp : 0 ≤ p) (m : ℕ) {k : ℕ} (hk : 1 ≤ k) :
    p * m / ((k + 1 : ℕ) : ℚ) ≤ p * m / (k : ℚ) := by
  have h0 : (0 : ℚ) < (k : ℚ) := by exact_mod_cast hk
  have h1 : (0 : ℚ) ≤ p * m := mul_nonneg hp (Nat.cast_nonneg m)
  push_cast
  gcongr
  linarith

theorem le_rank_factor {p : ℚ} (hp : 0 ≤ p) {m k : ℕ} (hkm : k ≤ m)
    (hk : 1 ≤ k) : p ≤ p * m / (k : ℚ) := by
  have h0 : (0 : ℚ) < (k : ℚ) := by exact_mod_cast hk
  rw [le_div_iff₀ h0]
  exact mul_le_mul_of_nonneg_left (by exact_mod_cast hkm) hp

theorem bhFrom_chain (m : ℕ) (l : List ℚ) :
    ∀ k : ℕ, List.Chain' (fun a b => a ≤ b) (bhFrom m k l) := by
  induction l with
  | nil => intro k; exact List.chain'_nil
  | cons p rest ih =>
      intro k
      rw [bhFrom_cons, List.chain'_cons']
      refine ⟨fun h hh => ?_, ih (k + 1)⟩
      have hh2 : (bhFrom m (k + 1) rest).head? = some h := hh
      have hd : (bhFrom m (k + 1) rest).headD 1 = h := by
        rw [List.headD_eq_head?, hh2]
        rfl
      rw [← hd]
      exact min_le_right _ _

theorem bhFrom_sorted (m k : ℕ) (l : List ℚ) :
    List.Sorted (fun a b => a ≤ b) (bhFrom m k l) :=
  List.chain'_iff_pairwise.mp (bhFrom_chain m l k)

theorem headD_eq_getD_zero (l : List ℚ) (h : l ≠ []) :
    l.headD 1 = l.getD 0 0 := by
  cases l with
  | nil => exact absurd rfl h
  | cons a t => rfl

theorem bhFrom_tie (m : ℕ) (l : List ℚ) :
    ∀ (k i j : ℕ), List.Sorted (fun a b => a ≤ b) l → (∀ p ∈ l, 0 ≤ p) →
      1 ≤ k → i ≤ j → j < l.length → l.getD i 0 = l.getD j 0 →
      (bhFrom m k l).getD i 0 = (bhFrom m k l).getD j 0 := by
  induction l with
  | nil =>
      intro k i j _ _ _ _ hj _
      exact absurd hj (Nat.not_lt_zero j)
  | cons p rest ih =>
      intro k i j hs hnn hk hij hj hval
      have hs2 := List.sorted_cons.mp hs
      have hnn2 : ∀ q ∈ rest, 0 ≤ q :=
        fun q hq => hnn q (List.mem_cons_of_mem p hq)
      have hp : 0 ≤ p := hnn p (List.mem_cons_self p rest)
      cases i with
      | zero =>
          cases j with
          | zero => rfl
          | succ j1 =>
              have hj1 : j1 < rest.length := by
                simpa using hj
              have hpj : rest.getD j1 0 = p := by
                rw [List.getD_cons_zero, List.getD_cons_succ] at hval
                exact hval.symm
              have hrest0 : rest.getD 0 0 = p := by
                refine le_antisymm ?_ ?_
                · rw [← hpj]
                  exact sorted_getD_mono hs2.2 (Nat.zero_le j1) hj1
                · refine hs2.1 _ ?_
                  rw [List.getD_eq_getElem _ _ (by omega : 0 < rest.length)]
                  exact List.getElem_mem _
              have hvr : rest.getD 0 0 = rest.getD j1 0 := by
                rw [hrest0, hpj]
              have hIH : (bhFrom m (k + 1) rest).getD 0 0 =
                  (bhFrom m (k + 1) rest).getD j1 0 :=
                ih (k + 1) 0 j1 hs2.2 hnn2 (by omega) (Nat.zero_le j1) hj1 hvr
              have hAne : bhFrom m (k + 1) rest ≠ [] := by
                intro hA
                have := bhFrom_length m rest (k + 1)
                rw [hA] at this
                simp at this
                omega
              have hhead : (bhFrom m (k + 1) rest).headD 1 =
                  (bhFrom m (k + 1) rest).getD 0 0 :=
                headD_eq_getD_zero _ hAne
              have habs : (bhFrom m (k + 1) rest).getD 0 0 ≤
                  min 1 (p * m / k) := by
                cases hr : rest with
                | nil =>
                    rw [hr] at hj1
                    simp at hj1
                | cons r0 rest2 =>
                    have hr0 : r0 = p := by
                      rw [hr, List.getD_cons_zero] at hrest0
                      exact hrest0
                    rw [bhFrom_cons, List.getD_cons_zero]
                    refine le_trans (min_le_left _ _) ?_
                    rw [hr0]
                    exact min_le_min (le_refl 1) (rank_factor_mono hp m hk)
              rw [bhFrom_cons, List.getD_cons_zero, List.getD_cons_succ,
                hhead, min_eq_right habs, hIH]
      | succ i1 =>
          cases j with
          | zero => omega
          | succ j1 =>
              rw [bhFrom_cons, List.getD_cons_succ, List.getD_cons_succ]
              rw [List.getD_cons_succ, List.getD_cons_succ] at hval
              exact ih (k + 1) i1 j1 hs2.2 hnn2 (by omega) (by omega)
                (by simpa using hj) hval

theorem bhFrom_ge (m : ℕ) (l : List ℚ) :
    ∀ (k j : ℕ), List.Sorted (fun a b => a ≤ b) l →
      (∀ p ∈ l, 0 ≤ p ∧ p ≤ 1) → 1 ≤ k → k + l.length ≤ m + 1 →
      j < l.length → l.getD j 0 ≤ (bhFrom m k l).getD j 0 := by
  induction l with
  | nil =>
      intro k j _ _ _ _ hj
      exact absurd hj (Nat.not_lt_zero j)
  | cons p rest ih =>
      intro k j hs hb hk hkm hj
      have hs2 := List.sorted_cons.mp hs
      have hb2 : ∀ q ∈ rest, 0 ≤ q ∧ q ≤ 1 :=
        fun q hq => hb q (List.mem_cons_of_mem p hq)
      have hbp := hb p (List.mem_cons_self p rest)
      cases j with
      | zero =>
          rw [bhFrom_cons, List.getD_cons_zero, List.getD_cons_zero]
          refine le_min (le_min hbp.2 ?_) ?_
          · refine le_rank_factor hbp.1 ?_ hk
            have := List.length_cons p rest
            omega
          · cases hr : rest with
            | nil => simp [bhFrom, hbp.2]
            | cons r0 rest2 =>
                rw [← hr]
                have hAne : bhFrom m (k + 1) rest ≠ [] := by
                  intro hA
                  have hlen := bhFrom_length m rest (k + 1)
                  rw [hA, hr] at hlen
                  simp at hlen
                rw [headD_eq_getD_zero _ hAne]
                have hstep : rest.getD 0 0 ≤
                    (bhFrom m (k + 1) rest).getD 0 0 := by
                  refine ih (k + 1) 0 hs2.2 hb2 (by omega) ?_ ?_
                  · rw [List.length_cons] at hkm
                    omega
                  · rw [hr]
                    simp
                refine le_trans ?_ hstep
                refine hs2.1 _ ?_
                rw [List.getD_eq_getElem _ _ (by rw [hr]; simp)]
                exact List.getElem_mem _
      | succ j1 =>
          rw [bhFrom_cons, List.getD_cons_succ, List.getD_cons_succ]
          refine ih (k + 1) j1 hs2.2 hb2 (by omega) ?_ (by simpa using hj)
          rw [List.length_cons] at hkm
          omega

theorem sortedAsc_sorted (ps : List ℚ) :
    List.Sorted (fun a b => a ≤ b) (sortedAsc ps) :=
  List.sorted_insertionSort _ ps

theorem sortedAsc_perm (ps : List ℚ) : (sortedAsc ps).Perm ps :=
  List.perm_insertionSort _ ps

theorem sortedAsc_length (ps : List ℚ) : (sortedAsc ps).length = ps.length :=
  List.length_insertionSort _ ps

theorem mem_sortedAsc {ps : List ℚ} {p : ℚ} (h : p ∈ ps) : p ∈ sortedAsc ps :=
  ((sortedAsc_perm ps).mem_iff).mpr h

theorem getD_mem_of_lt {l : List ℚ} {i : ℕ} (hi : i < l.length) :
    l.getD i 0 ∈ l := by
  rw [List.getD_eq_getElem _ _ hi]
  exact List.getElem_mem hi

theorem bhAdjust_getD (ps : List ℚ) (i : ℕ) (hi : i < ps.length) :
    (bhAdjust ps).getD i 0 =
      (bhSortedAdj ps).getD ((sortedAsc ps).indexOf (ps.getD i 0)) 0 := by
  unfold bhAdjust
  have hlen : i < (ps.map (fun p =>
      (bhSortedAdj ps).getD ((sortedAsc ps).indexOf p) 0)).length := by
    rw [List.length_map]
    exact hi
  rw [List.getD_eq_getElem _ _ hlen, List.getElem_map,
    List.getD_eq_getElem _ _ hi]

theorem assignedAdjusted_eq (ps : List ℚ) (i : ℕ) (hi : i < ps.length) :
    assignedAdjusted ps i =
      (bhSortedAdj ps).getD ((sortedAsc ps).indexOf (ps.getD i 0)) 0 := by
  unfold assignedAdjusted
  have hmem : ps.getD i 0 ∈ ps := getD_mem_of_lt hi
  have hidx : ps.indexOf (ps.getD i 0) < ps.length :=
    List.indexOf_lt_length.mpr hmem
  rw [bhAdjust_getD ps _ hidx]
  have hval : ps.getD (ps.indexOf (ps.getD i 0)) 0 = ps.getD i 0 := by
    rw [List.getD_eq_getElem _ _ hidx]
    exact List.getElem_indexOf hidx
  rw [hval]

/-! ## Cardinality of the deduplicated intersection -/

theorem inter_card_eq (mapped S : List String) (hm : mapped.Nodup) :
    ((mapped.dedup).filter (fun x => x ∈ S)).length =
      (mapped.toFinset ∩ S.toFinset).card := by
  rw [List.Nodup.dedup hm]
  have h1 : (mapped.filter (fun x => x ∈ S)).Nodup := hm.filter _
  rw [← List.toFinset_card_of_nodup h1]
  rw [List.toFinset_filter, ← Finset.filter_mem_eq_inter]
  congr 1
  apply Finset.filter_congr
  intro x hx
  simp [List.mem_toFinset]

/-! ## Sample inputs used by the witnesses -/

/-- The synthetic genome of the spec's round-trip example: five features,
features F1 and F3 share GO:0001, F2 carries GO:9999 and a non-GO entry. -/
def sampleFeatures : List GenomeFeature :=
  [ ⟨some "F1", none, none, some [("GO:0001", "test process")]⟩,
    ⟨some "F2", none, none, some [("GO:9999", "other"), ("EC:1.1.1.1", "ec")]⟩,
    ⟨some "F3", none, none, some [("GO:0001", "test process")]⟩,
    ⟨some "F4", none, none, none⟩,
    ⟨some "F5", none, none, some []⟩ ]

/-! ## Claims -/

/-- C1: for every batch of raw p-values (terms identified by their position),
when raw p-values tie, the adjusted value each term receives from the
corrector-plus-lookup of `run_fe1` equals the Benjamini-Hochberg adjusted
value computed at the term's own position in the ascending sort of the raw
p-values — any sorted position holding that raw value yields the same
adjusted value, so the first-occurrence lookup the code performs returns
exactly the own-rank value. -/
theorem C1_tied_values_own_rank (ps : List ℚ) (hnn : ∀ p ∈ ps, 0 ≤ p)
    (i j : ℕ) (hi : i < ps.length) (hj : j < (sortedAsc ps).length)
    (hval : (sortedAsc ps).getD j 0 = ps.getD i 0) :
    assignedAdjusted ps i = (bhSortedAdj ps).getD j 0 := by
  rw [assignedAdjusted_eq ps i hi]
  have hmem : ps.getD i 0 ∈ sortedAsc ps := mem_sortedAsc (getD_mem_of_lt hi)
  have hidx : (sortedAsc ps).indexOf (ps.getD i 0) < (sortedAsc ps).length :=
    List.indexOf_lt_length.mpr hmem
  have hvi : (sortedAsc ps).getD ((sortedAsc ps).indexOf (ps.getD i 0)) 0 =
      ps.getD i 0 := by
    rw [List.getD_eq_getElem _ _ hidx]
    exact List.getElem_indexOf hidx
  have hnns : ∀ p ∈ sortedAsc ps, 0 ≤ p :=
    fun p hp => hnn p ((sortedAsc_perm ps).mem_iff.mp hp)
  have hs := sortedAsc_sorted ps
  unfold bhSortedAdj
  rcases le_total ((sortedAsc ps).indexOf (ps.getD i 0)) j with hle | hle
  · exact bhFrom_tie ps.length (sortedAsc ps) 1 _ j hs hnns (le_refl 1) hle hj
      (by rw [hvi, hval])
  · exact (bhFrom_tie ps.length (sortedAsc ps) 1 j _ hs hnns (le_refl 1) hle
      hidx (by rw [hval, hvi])).symm

/-- Witness for C1 on the spec's own example batch [0.01, 0.01, 0.5]: the
second tied term (position 1) receives the adjusted value of sorted rank 0,
which equals the value at its own sorted rank. -/
theorem C1_witness :
    (∀ p ∈ ([1/100, 1/100, 1/2] : List ℚ), 0 ≤ p) ∧
      assignedAdjusted [1/100, 1/100, 1/2] 1 =
        (bhSortedAdj [1/100, 1/100, 1/2]).getD 0 0 :=
  ⟨by norm_num [List.forall_mem_cons],
    C1_tied_values_own_rank [1/100, 1/100, 1/2]
      (by norm_num [List.forall_mem_cons]) 1 0
      (by norm_num)
      (by rw [sortedAsc_length]; norm_num)
      (by norm_num [sortedAsc, List.insertionSort, List.orderedInsert,
        List.getD_cons_succ, List.getD_cons_zero])⟩

/-- C2: the claim says the engine returns the one-tailed over-representation
(upper-tail) probability; the code takes `fisher.pvalue(...).left_tail`,
the lower tail.  At the table (1, 0, 0, 1) the code's value is 1 while the
over-representation probability is 1/2, so the code contradicts the claim. -/
theorem C2_left_tail_not_over_representation :
    fisherLeftTail 1 0 0 1 = 1 ∧ specRightTail 1 0 0 1 = 1 / 2 ∧
      fisherLeftTail 1 0 0 1 ≠ specRightTail 1 0 0 1 := by
  have h1 : fisherLeftTail 1 0 0 1 =
      hypergeomPMF 2 1 1 0 + hypergeomPMF 2 1 1 1 := by
    norm_num [fisherLeftTail, List.range_succ]
  have h2 : specRightTail 1 0 0 1 = hypergeomPMF 2 1 1 1 := by
    norm_num [specRightTail, List.range_succ]
  have h3 : hypergeomPMF 2 1 1 0 = 1 / 2 := by
    norm_num [hypergeomPMF, Nat.choose]
  have h4 : hypergeomPMF 2 1 1 1 = 1 / 2 := by
    norm_num [hypergeomPMF, Nat.choose]
  rw [h1, h2, h3, h4]
  norm_num

/-- C3: the claim says a table with a = 0 yields raw value 1; the code's
lower tail at the table (0, 1, 1, 0) is 1/2, not 1. -/
theorem C3_zero_overlap_not_one :
    fisherLeftTail 0 1 1 0 = 1 / 2 ∧ fisherLeftTail 0 1 1 0 ≠ 1 := by
  have h1 : fisherLeftTail 0 1 1 0 = hypergeomPMF 2 1 1 0 := by
    norm_num [fisherLeftTail, List.range_succ]
  have h2 : hypergeomPMF 2 1 1 0 = 1 / 2 := by
    norm_num [hypergeomPMF, Nat.choose]
  rw [h1, h2]
  norm_num

/-- C4: for a term whose annotated-feature list has no duplicates (feature
identifiers are unique), the table built by `run_fe1` is
a = |F_t ∩ S|, b = n - a, c = |F_t| - a, d = N - n - c, and consequently
a + b + c + d = N and a + b = n. -/
theorem C4_contingency_table (mapped S U : List String) (hm : mapped.Nodup) :
    (buildContTable mapped S U).a = ((mapped.toFinset ∩ S.toFinset).card : ℤ) ∧
      (buildContTable mapped S U).b =
        (S.length : ℤ) - (buildContTable mapped S U).a ∧
      (buildContTable mapped S U).c =
        (mapped.toFinset.card : ℤ) - (buildContTable mapped S U).a ∧
      (buildContTable mapped S U).d =
        (U.length : ℤ) - (S.length : ℤ) - (buildContTable mapped S U).c ∧
      (buildContTable mapped S U).a + (buildContTable mapped S U).b +
          (buildContTable mapped S U).c + (buildContTable mapped S U).d =
        (U.length : ℤ) ∧
      (buildContTable mapped S U).a + (buildContTable mapped S U).b =
        (S.length : ℤ) := by
  have hb : (buildContTable mapped S U).b =
      (S.length : ℤ) - (buildContTable mapped S U).a := rfl
  have hd : (buildContTable mapped S U).d =
      (U.length : ℤ) - (S.length : ℤ) - (buildContTable mapped S U).c := rfl
  have hc0 : (buildContTable mapped S U).c =
      (mapped.length : ℤ) - (buildContTable mapped S U).a := rfl
  refine ⟨?_, hb, ?_, hd, ?_, ?_⟩
  · rw [show (buildContTable mapped S U).a =
        ((((mapped.dedup).filter (fun x => x ∈ S)).length : ℕ) : ℤ) from rfl]
    exact_mod_cast inter_card_eq mapped S hm
  · rw [hc0, List.toFinset_card_of_nodup hm]
  · rw [hb, hd, hc0]
    ring
  · rw [hb]
    ring

/-- Witness for C4 on the spec's round-trip example: term GO:0001 with
features {F1, F3}, set of interest {F1, F3, F5}, universe of five features;
the four cells sum to the universe size. -/
theorem C4_witness :
    (["F1", "F3"] : List String).Nodup ∧
      (buildContTable ["F1", "F3"] ["F1", "F3", "F5"]
            ["F1", "F2", "F3", "F4", "F5"]).a +
          (buildContTable ["F1", "F3"] ["F1", "F3", "F5"]
            ["F1", "F2", "F3", "F4", "F5"]).b +
          (buildContTable ["F1", "F3"] ["F1", "F3", "F5"]
            ["F1", "F2", "F3", "F4", "F5"]).c +
          (buildContTable ["F1", "F3"] ["F1", "F3", "F5"]
            ["F1", "F2", "F3", "F4", "F5"]).d =
        ((["F1", "F2", "F3", "F4", "F5"] : List String).length : ℤ) :=
  ⟨by decide,
    (C4_contingency_table ["F1", "F3"] ["F1", "F3", "F5"]
      ["F1", "F2", "F3", "F4", "F5"] (by decide)).2.2.2.2.1⟩

/-- C5 counterexample: the claim says every retained identifier matches
"GO:<digits>"; the code retains "GO:abc", which has no digits after the
colon, because the regex `[gG][oO]\:.*` constrains only the prefix. -/
theorem C5_counterexample :
    "GO:abc" ∈ dictKeys (get_go_maps_from_genome
        [⟨some "F1", none, none, some [("GO:abc", "label")]⟩]).go_id_go_term_map
      ∧ specGoPattern "GO:abc" = false := by
  constructor
  · decide
  · decide

/-- C5 (amended): every term identifier retained in either term-indexed map
of the AnnotationIndex starts with the case-insensitive prefix "GO:" (the
rest of the identifier is unconstrained); identifiers of any other
namespace, such as "EC:1.1.1.1", never appear, and their presence never
raises an error (the builder is a total function). -/
theorem C5_go_namespace_only (features : List GenomeFeature) (k : String)
    (h : k ∈ dictKeys (get_go_maps_from_genome features).go_id_go_term_map ∨
      k ∈ dictKeys (get_go_maps_from_genome features).go_id_feature_id_list_map) :
    isGoId k = true := by
  have hinv : GoKeysInv (get_go_maps_from_genome features) := by
    unfold get_go_maps_from_genome
    refine foldl_goKeys features ⟨[], [], [], []⟩ ⟨?_, ?_⟩
    · intro t ht
      simp [dictKeys] at ht
    · intro t ht
      simp [dictKeys] at ht
  rcases h with h | h
  · exact hinv.1 k h
  · exact hinv.2 k h

/-- Witness for C5: the retained identifier GO:0001 of the sample genome
passes the code's prefix test. -/
theorem C5_witness :
    ("GO:0001" ∈ dictKeys
        (get_go_maps_from_genome sampleFeatures).go_id_go_term_map ∨
      "GO:0001" ∈ dictKeys
        (get_go_maps_from_genome sampleFeatures).go_id_feature_id_list_map) ∧
      isGoId "GO:0001" = true :=
  ⟨Or.inl (by decide),
    C5_go_namespace_only sampleFeatures "GO:0001" (Or.inl (by decide))⟩

/-- C6 counterexample: the claim says the builder fails with ValidationError
when a record lacks a feature identifier; the code performs no such check —
on a single record with no feature id it succeeds and files the record under
the null identifier. -/
theorem C6_counterexample :
    get_go_maps_from_genome [⟨none, none, none, none⟩] =
      ⟨[], [], [], [(none, ⟨none, none⟩)]⟩ := rfl

/-- C6 (amended): the Annotation Index Builder never fails; every record of
every input sequence, including records lacking a feature identifier, is
processed and registered in the per-feature metadata map (a missing
identifier is indexed as the null identifier). -/
theorem C6_builder_total (features : List GenomeFeature) (gf : GenomeFeature)
    (h : gf ∈ features) :
    gf.feature_id ∈ dictKeys
      (get_go_maps_from_genome features).feature_id_feature_info_map := by
  unfold get_go_maps_from_genome
  exact mem_info_of_mem features ⟨[], [], [], []⟩ gf h

/-- Witness for C6: the first sample record is registered. -/
theorem C6_witness :
    ((⟨some "F1", none, none, some [("GO:0001", "test process")]⟩ :
        GenomeFeature) ∈ sampleFeatures) ∧
      some "F1" ∈ dictKeys
        (get_go_maps_from_genome sampleFeatures).feature_id_feature_info_map :=
  ⟨by decide,
    C6_builder_total sampleFeatures
      ⟨some "F1", none, none, some [("GO:0001", "test process")]⟩ (by decide)⟩

/-- C7 counterexample: the claim says the corrector fails with
ValidationError on an empty input collection; R's `p.adjust` (and hence the
embedded corrector) simply returns the empty output, so the run does not
fail at m = 0. -/
theorem C7_counterexample : bhAdjust [] = [] := rfl

/-- C7 (amended): the Multiple-Testing Corrector is a total function: for
every input batch, including the empty one, it returns one adjusted value
per input value and never fails. -/
theorem C7_corrector_total (ps : List ℚ) :
    (bhAdjust ps).length = ps.length := by
  unfold bhAdjust
  rw [List.length_map]

/-- C8: on any input whose records carry pairwise distinct feature
identifiers, the built index satisfies: a (feature, term) pair is recorded
in the feature-to-term direction exactly when it is recorded in the
term-to-feature direction; the label map and the term-to-feature map hold
exactly the same terms; and no term is materialized with an empty feature
list. -/
theorem C8_index_mutual_inverse (features : List GenomeFeature)
    (h : (features.map (fun gf => gf.feature_id)).Nodup) :
    (∀ fid t, featHasTerm (get_go_maps_from_genome features) fid t ↔
        termHasFeat (get_go_maps_from_genome features) fid t) ∧
      (∀ t, t ∈ dictKeys (get_go_maps_from_genome features).go_id_go_term_map ↔
        t ∈ dictKeys
          (get_go_maps_from_genome features).go_id_feature_id_list_map) ∧
      (∀ t l, dictGet?
          (get_go_maps_from_genome features).go_id_feature_id_list_map t =
            some l → l ≠ []) := by
  have hinv := get_go_maps_inv features h
  exact ⟨hinv.1, hinv.2.1, hinv.2.2⟩

/-- Witness for C8: on the sample genome, the pair (F1, GO:0001) is recorded
in both directions of the relation. -/
theorem C8_witness :
    ((sampleFeatures.map (fun gf => gf.feature_id)).Nodup) ∧
      (featHasTerm (get_go_maps_from_genome sampleFeatures)
          (some "F1") "GO:0001" ↔
        termHasFeat (get_go_maps_from_genome sampleFeatures)
          (some "F1") "GO:0001") :=
  ⟨by decide,
    (C8_index_mutual_inverse sampleFeatures (by decide)).1 (some "F1") "GO:0001"⟩

/-- C9: for a non-empty batch of probabilities, the Benjamini-Hochberg
adjusted sequence taken in ascending raw order is non-decreasing in rank,
and every term's adjusted value is at least its own raw value. -/
theorem C9_bh_monotone_dominates (ps : List ℚ)
    (hb : ∀ p ∈ ps, 0 ≤ p ∧ p ≤ 1) (_hne : ps ≠ []) :
    List.Sorted (fun a b => a ≤ b) (bhSortedAdj ps) ∧
      ∀ i, i < ps.length → ps.getD i 0 ≤ (bhAdjust ps).getD i 0 := by
  constructor
  · unfold bhSortedAdj
    exact bhFrom_sorted ps.length 1 (sortedAsc ps)
  · intro i hi
    rw [bhAdjust_getD ps i hi]
    have hmem : ps.getD i 0 ∈ sortedAsc ps := mem_sortedAsc (getD_mem_of_lt hi)
    have hidx : (sortedAsc ps).indexOf (ps.getD i 0) < (sortedAsc ps).length :=
      List.indexOf_lt_length.mpr hmem
    have hvi : (sortedAsc ps).getD ((sortedAsc ps).indexOf (ps.getD i 0)) 0 =
        ps.getD i 0 := by
      rw [List.getD_eq_getElem _ _ hidx]
      exact List.getElem_indexOf hidx
    have hbs : ∀ p ∈ sortedAsc ps, 0 ≤ p ∧ p ≤ 1 :=
      fun p hp => hb p ((sortedAsc_perm ps).mem_iff.mp hp)
    have hge := bhFrom_ge ps.length (sortedAsc ps) 1
      ((sortedAsc ps).indexOf (ps.getD i 0)) (sortedAsc_sorted ps) hbs
      (le_refl 1) (by rw [sortedAsc_length]; omega) hidx
    rw [hvi] at hge
    unfold bhSortedAdj
    exact hge

/-- Witness for C9: on the batch [0.01, 0.3] the first raw value is at most
its adjusted value. -/
theorem C9_witness :
    (∀ p ∈ ([1/100, 3/10] : List ℚ), 0 ≤ p ∧ p ≤ 1) ∧
      ([1/100, 3/10] : List ℚ) ≠ [] ∧
      ([1/100, 3/10] : List ℚ).getD 0 0 ≤ (bhAdjust [1/100, 3/10]).getD 0 0 :=
  ⟨by norm_num [List.forall_mem_cons], by simp,
    (C9_bh_monotone_dominates [1/100, 3/10]
      (by norm_num [List.forall_mem_cons]) (by simp)).2 0 (by norm_num)⟩

/-- C10: two terms of the batch whose raw p-values are exactly equal are
assigned identical adjusted p-values by `run_fe1`, namely the adjusted value
found at the first position of the unsorted raw-p-value list that holds
their common raw value. -/
theorem C10_ties_identical_first_lookup (ps : List ℚ) (i j : ℕ)
    (h : ps.getD i 0 = ps.getD j 0) :
    assignedAdjusted ps i = assignedAdjusted ps j ∧
      assignedAdjusted ps i =
        (bhAdjust ps).getD (ps.indexOf (ps.getD i 0)) 0 := by
  constructor
  · unfold assignedAdjusted
    rw [h]
  · rfl

/-- Witness for C10 on the batch [0.5, 0.01, 0.01]: the two tied terms at
positions 1 and 2 receive the same adjusted value. -/
theorem C10_witness :
    ([1/2, 1/100, 1/100] : List ℚ).getD 1 0 =
        ([1/2, 1/100, 1/100] : List ℚ).getD 2 0 ∧
      assignedAdjusted [1/2, 1/100, 1/100] 1 =
        assignedAdjusted [1/2, 1/100, 1/100] 2 :=
  ⟨by norm_num [List.getD_cons_succ, List.getD_cons_zero],
    (C10_ties_identical_first_lookup [1/2, 1/100, 1/100] 1 2
      (by norm_num [List.getD_cons_succ, List.getD_cons_zero])).1⟩
